import Mathlib

/-!
Verification of the activedirectory-handler repository.

This file gives a shallow embedding, in Lean 4, of the parts of the
activedirectory-handler JavaScript library that the specification talks
about, and proves (or refutes) the stated properties against that
embedding.

Embedded components:
* the LDAP filter DSL compiler (`ldapfilter.js`): `ldapfilter` below,
  with its helpers `synthattribute`, `synthvalue` and the RFC 2254
  escaping loop `escapeValue`;
* the SID decoder (`ldapparsing.js`): `ldapBufferToSid`;
* the `getOneObject` wrapper;
* the `select` validation prelude of `getObjects`;
* the ranged-attribute completion subroutine `completeValueRange`;
* the transitive group lookup
  `rewrite_filter_for_transitive_membership_Helper_transitiveGroupLookup`;
* the buffering / backpressure event loop of `rawSearch`, as a small-step
  state machine.

JavaScript dynamic values that flow through the filter compiler are
modelled by the inductive type `JSVal` (strings, numbers and arrays
suffice for every check the source performs).  Functions that can throw
(`assert`, `futile.err`, `throw`) return `Except String α`, the error
string standing for the thrown exception.  Recursion of the source that
is not structurally decreasing is modelled with an explicit fuel
parameter; `none` then stands for a computation that ran out of fuel.
-/

/-- A dynamically typed JavaScript value as far as the library inspects
them: a (primitive) string, some other non-string primitive (modelled as
a number), or an array. -/
inductive JSVal where
  | str : String → JSVal
  | num : Int → JSVal
  | arr : List JSVal → JSVal

/-- The strict-equality test `i[2] === "TRUE" || i[2] === "FALSE"` in the
boolean-attribute branch of the `equals` case. -/
def isBoolLiteral : JSVal → Bool
  | .str "TRUE" => true
  | .str "FALSE" => true
  | _ => false

/-- First character class of the attribute-name regex
`/^[a-z][A-Za-z0-9-]{1,59}$/u` from `synthattribute` in ldapfilter.js. -/
def isAttrHeadChar (c : Char) : Bool :=
  'a' ≤ c && c ≤ 'z'

/-- Remaining character class `[A-Za-z0-9-]` of the attribute-name regex. -/
def isAttrTailChar (c : Char) : Bool :=
  ('a' ≤ c && c ≤ 'z') || ('A' ≤ c && c ≤ 'Z') || ('0' ≤ c && c ≤ '9') || c = '-'

/-- Whether a string matches the attribute-name regex
`/^[a-z][A-Za-z0-9-]{1,59}$/u`: a lowercase ASCII letter followed by 1 to
59 characters from `[A-Za-z0-9-]`. -/
def attributeNameOK (s : String) : Bool :=
  match s.data with
  | [] => false
  | c :: cs => isAttrHeadChar c && cs.all isAttrTailChar && 1 ≤ cs.length && cs.length ≤ 59

/-- JavaScript line terminators, the only characters `.` does not match
in the value regex `/^.{1,255}$/u` of `synthvalue`. -/
def isJSLineTerminator (c : Char) : Bool :=
  c = '\n' || c = '\r' || c = Char.ofNat 0x2028 || c = Char.ofNat 0x2029

/-- Whether a string matches the value regex `/^.{1,255}$/u`: 1 to 255
code points, none of them a line terminator. -/
def valueOK (s : String) : Bool :=
  1 ≤ s.length && s.length ≤ 255 && s.data.all (fun c => !isJSLineTerminator c)

/-- The body of the `switch` inside the `_escape` loop of ldapfilter.js:
append to the accumulator the escape sequence of a special character, or
the character itself otherwise. -/
def escStep (esc : String) (c : Char) : String :=
  if c = '*' then esc ++ "\\2a"
  else if c = '(' then esc ++ "\\28"
  else if c = ')' then esc ++ "\\29"
  else if c = '\\' then esc ++ "\\5c"
  else if c = Char.ofNat 0 then esc ++ "\\00"
  else esc.push c

/-- The RFC 2254 escaping loop `_escape` of ldapfilter.js, on its string
branch: fold over the characters, replacing the five special characters
by their escape sequences and appending every other character unchanged. -/
def escapeValue (inp : String) : String :=
  inp.data.foldl escStep ""

/-- `synthattribute` of ldapfilter.js: assert the argument is a string
matching the attribute-name regex, and return it. -/
def synthattribute : JSVal → Except String String
  | .str a => if attributeNameOK a then .ok a else .error "assert: attribute regex"
  | _ => .error "assert: typeof a === string"

/-- `synthvalue` of ldapfilter.js: assert the argument is a string
matching the value regex, and return its escaped form. -/
def synthvalue : JSVal → Except String String
  | .str a => if valueOK a then .ok (escapeValue a) else .error "assert: value regex"
  | _ => .error "assert: typeof a === string"

/-- The `b.has(i[1])` test of the `equals`/`beginswith`/`endswith`/
`contains` cases: the boolean-attribute set contains the (string)
attribute operand.  A non-string operand is in no set of strings. -/
def boolAttrHit (b : List String) : JSVal → Bool
  | .str a => b.contains a
  | _ => false

/-- Map-and-join of compiled subexpressions, as performed by
`_.map(_.slice(i, 1), x => ldapfilter(x, b)).join("")` in the `and`/`or`
case: compile each child in order, propagating the first thrown error
(and fuel exhaustion), and concatenate the result strings. -/
def joinComp (F : JSVal → Option (Except String String)) :
    List JSVal → Option (Except String String)
  | [] => some (.ok "")
  | x :: xs =>
    match F x with
    | none => none
    | some (.error e) => some (.error e)
    | some (.ok s) =>
      match joinComp F xs with
      | none => none
      | some (.error e) => some (.error e)
      | some (.ok t) => some (.ok (s ++ t))

/-- The LDAP filter synthesizer `ldapfilter(i, b)` of ldapfilter.js.

The first argument is fuel bounding the depth of JavaScript call nesting;
`none` means the fuel ran out (the source has no such bound; every claim
proved below is fuel-independent or quantifies over sufficient fuel).
`some (.error e)` models a thrown `assert`/`Error`, `some (.ok s)` the
returned filter string.  Each case mirrors the corresponding `switch`
case of the source, including the re-entrant calls the source makes for
`oneof`, `true` and `false`. -/
def ldapfilter : Nat → JSVal → List String → Option (Except String String)
  | 0, _, _ => none
  | _ + 1, .str _, _ => some (.error "assert: Array.isArray(i)")
  | _ + 1, .num _, _ => some (.error "assert: Array.isArray(i)")
  | _ + 1, .arr [], _ => some (.error "assert: l > 0")
  | f + 1, .arr (op :: args), b =>
    match op with
    | .str "and" =>
      match args with
      | [] => some (.error "assert: l >= 2")
      | [x] => ldapfilter f x b
      | _ =>
        match joinComp (fun x => ldapfilter f x b) args with
        | none => none
        | some (.error e) => some (.error e)
        | some (.ok s) => some (.ok ("(&" ++ s ++ ")"))
    | .str "or" =>
      match args with
      | [] => some (.error "assert: l >= 2")
      | [x] => ldapfilter f x b
      | _ =>
        match joinComp (fun x => ldapfilter f x b) args with
        | none => none
        | some (.error e) => some (.error e)
        | some (.ok s) => some (.ok ("(|" ++ s ++ ")"))
    | .str "not" =>
      match args with
      | [x] =>
        match ldapfilter f x b with
        | none => none
        | some (.error e) => some (.error e)
        | some (.ok s) => some (.ok ("(!" ++ s ++ ")"))
      | _ => some (.error "assert: l === 2")
    | .str "equals" =>
      match args with
      | [a, v] =>
        if boolAttrHit b a && !isBoolLiteral v then
          some (.error "boolean attribute can only be equal to TRUE or FALSE")
        else
          match synthattribute a with
          | .error e => some (.error e)
          | .ok sa =>
            match synthvalue v with
            | .error e => some (.error e)
            | .ok sv => some (.ok ("(" ++ sa ++ "=" ++ sv ++ ")"))
      | _ => some (.error "assert: l === 3")
    | .str "beginswith" =>
      match args with
      | [a, v] =>
        if boolAttrHit b a then
          some (.error "boolean attribute is not allowed in beginswith expressions")
        else
          match synthattribute a with
          | .error e => some (.error e)
          | .ok sa =>
            match synthvalue v with
            | .error e => some (.error e)
            | .ok sv => some (.ok ("(" ++ sa ++ "=" ++ sv ++ "*)"))
      | _ => some (.error "assert: l === 3")
    | .str "endswith" =>
      match args with
      | [a, v] =>
        if boolAttrHit b a then
          some (.error "boolean attribute is not allowed in endswith expressions")
        else
          match synthattribute a with
          | .error e => some (.error e)
          | .ok sa =>
            match synthvalue v with
            | .error e => some (.error e)
            | .ok sv => some (.ok ("(" ++ sa ++ "=*" ++ sv ++ ")"))
      | _ => some (.error "assert: l === 3")
    | .str "contains" =>
      match args with
      | [a, v] =>
        if boolAttrHit b a then
          some (.error "boolean attribute is not allowed in contains expressions")
        else
          match synthattribute a with
          | .error e => some (.error e)
          | .ok sa =>
            match synthvalue v with
            | .error e => some (.error e)
            | .ok sv => some (.ok ("(" ++ sa ++ "=*" ++ sv ++ "*)"))
      | _ => some (.error "assert: l === 3")
    | .str "has" =>
      match args with
      | [a] =>
        match synthattribute a with
        | .error e => some (.error e)
        | .ok sa => some (.ok ("(" ++ sa ++ "=*)"))
      | _ => some (.error "assert: l === 2")
    | .str "oneof" =>
      match args with
      | [a, vs] =>
        match vs with
        | .arr arrValue =>
          if arrValue.isEmpty then
            ldapfilter f (.arr [.str "false"]) b
          else
            ldapfilter f
              (.arr (.str "or" :: arrValue.map (fun val => .arr [.str "equals", a, val]))) b
        | _ => some (.error "assert: isArray(arrValue)")
      | _ => some (.error "assert: l === 3")
    | .str "true" =>
      match args with
      | [] => ldapfilter f (.arr [.str "has", .str "objectClass"]) b
      | _ => some (.error "assert: l === 1")
    | .str "false" =>
      match args with
      | [] => ldapfilter f (.arr [.str "not", .arr [.str "true"]]) b
      | _ => some (.error "assert: l === 1")
    | .str _ => some (.error "Error in LDAP filter expression")
    | _ => some (.error "assert: typeof op === string")

/-- The `for await` loop body of `getOneObject`: push each record onto
`searchresult`, asserting `searchresult.length <= 1` after each push.
The second component of the result counts how many records of the
sequence were consumed before the loop returned or threw. -/
def getOneObjectLoop {α : Type} :
    List α → Nat → List α → Except String (List α) × Nat
  | searchresult, consumed, [] => (.ok searchresult, consumed)
  | searchresult, consumed, r :: rest =>
    let s' := searchresult ++ [r]
    if s'.length ≤ 1 then getOneObjectLoop s' (consumed + 1) rest
    else (.error "assert: searchresult.length <= 1", consumed + 1)

/-- `getOneObject` of ActiveDirectoryHandler.js, with the stream of
records produced by `getObjects` modelled as a list: run the collecting
loop, then assert `searchresult.length === 1` and return the single
record.  The second component is the number of records consumed. -/
def getOneObject {α : Type} (records : List α) : Except String α × Nat :=
  match getOneObjectLoop [] 0 records with
  | (.error e, n) => (.error e, n)
  | (.ok searchresult, n) =>
    match searchresult with
    | [r] => (.ok r, n)
    | _ => (.error "assert: searchresult.length === 1", n)

/-- `ldapBufferToSid` of ldapparsing.js.  The buffer is the list of byte
values; BigInt arithmetic of the source is exact arithmetic on `Nat`.
The three `assert`s become error results; on success the function builds
`"S-<revision>-<authority>"` and appends `-<subauthority>` once per
sub-authority, exactly as the source loop does. -/
def ldapBufferToSid (buffer : List Nat) : Except String String :=
  let blen := buffer.length
  if 8 ≤ blen then
    let revision := buffer.getD 0 0
    if revision = 1 then
      let count := buffer.getD 1 0
      if blen = 8 + 4 * count then
        let authority :=
          buffer.getD 2 0 <<< 40 ||| buffer.getD 3 0 <<< 32 ||| buffer.getD 4 0 <<< 24 |||
            buffer.getD 5 0 <<< 16 ||| buffer.getD 6 0 <<< 8 ||| buffer.getD 7 0
        let sid0 := "S-" ++ toString revision ++ "-" ++ toString authority
        .ok ((List.range count).foldl
          (fun sid i =>
            let off := 8 + 4 * i
            let subauthority :=
              buffer.getD off 0 ||| buffer.getD (off + 1) 0 <<< 8 |||
                buffer.getD (off + 2) 0 <<< 16 ||| buffer.getD (off + 3) 0 <<< 24
            sid ++ ("-" ++ toString subauthority)) sid0)
      else .error "assert: blen === 8n + 4n * count"
    else .error "assert: revision === 1n"
  else .error "assert: 8n <= blen"

/-- Big-endian integer denoted by a list of bytes (most significant
first), as the claim reads bytes 2 to 7 of a SID. -/
def beBytes (l : List Nat) : Nat :=
  l.foldl (fun acc d => 256 * acc + d) 0

/-- Little-endian integer denoted by a list of bytes (least significant
first), as the claim reads each 4-byte sub-authority of a SID. -/
def leBytes (l : List Nat) : Nat :=
  l.foldr (fun d acc => 256 * acc + d) 0

/-- The SID string described by claim C8:
`"S-<revision>-<authority>-<sa1>-…-<saN>"` with the authority the 48-bit
big-endian integer of bytes 2–7 and each sub-authority the 32-bit
little-endian integer of bytes `8+4i` to `11+4i`, all in decimal. -/
def sidSpec (buffer : List Nat) : String :=
  let count := buffer.getD 1 0
  "S-1-" ++ toString (beBytes ((buffer.drop 2).take 6)) ++
    String.join ((List.range count).map
      (fun i => "-" ++ toString (leBytes ((buffer.drop (8 + 4 * i)).take 4))))

/-- Coercion of a JavaScript array to a list of strings, as tested by
`_.every(select, _.isString)`: `some` of the strings when every element
is a string, `none` otherwise. -/
def asStrings : List JSVal → Option (List String)
  | [] => some []
  | .str s :: rest => (asStrings rest).map (s :: ·)
  | _ => none

/-- The attribute-name test applied to `select` entries in getObjects
(ActiveDirectoryHandler.js line 242), modelling its actual JavaScript
semantics.  The source evaluates `x.match(AttributeNameRE)` where
`AttributeNameRE` was imported on line 11 as `ldapfilter.AttributeNameRE`;
the ldapfilter module (`module.exports = ldapfilter`) exports no
`AttributeNameRE` property, so the imported value is `undefined`.
`String.prototype.match(undefined)` coerces its argument to the empty
regular expression, which matches every string, so this check is
constantly true. -/
def selectNameMatchesImportedRE (_ : String) : Bool := true

/-- The `select` validation prelude of `getObjects`
(ActiveDirectoryHandler.js lines 236-247): `select_all` is
`select === "*"`; otherwise `select` must be a non-empty array of
strings, every element must pass `selectNameMatchesImportedRE` or be one
of the two virtual attribute names, and selecting `controls` or `dn` is
refused.  `.ok true`/`.ok false` reports `select_all`; `.error` models a
thrown assertion.  In the source the LDAP connection is opened
(`newConnection`, line 365) only after this block succeeds. -/
def getObjects_validate_select : JSVal → Except String Bool
  | .str "*" => .ok true
  | .arr elems =>
    if elems.isEmpty then .error "select must be '*' or a non-empty array of strings"
    else
      match asStrings elems with
      | none => .error "select must be '*' or a non-empty array of strings"
      | some names =>
        if names.all (fun x => selectNameMatchesImportedRE x ||
            x = "_transitive_member" || x = "_transitive_memberOf") then
          if names.contains "controls" then
            .error "getObjects does not support selecting the field 'controls'"
          else if names.contains "dn" then
            .error "getObjects does not support selecting the field 'dn'"
          else .ok false
        else .error "Illegal attribute name in select option"
  | _ => .error "select must be '*' or a non-empty array of strings"

/-- One ranged chunk as the server returns it to `completeValueRange`:
the echoed range start, the range end (`none` models `"*"`), and the
value list in server order (`entry.object[type]` and `_vals`), which the
subroutine reverses. -/
structure RangeChunk (V R : Type) where
  rangeFrom : Nat
  rangeTo : Option Nat
  vals : List V
  rawvals : List R

/-- The `OVERLAP` constant of `completeValueRange`. -/
def OVERLAP : Nat := 10

/-- `completeValueRange` of ActiveDirectoryHandler.js.  The per-round
`rawSearch` for `<attribute>;range=<offset>-*` is modelled by `server`,
a function from the requested offset to the returned chunk (the
surrounding single-entry / distinguishedName checks of the source
concern the response envelope and are not modelled).  The `assert`s of
the source become `.error`s: init-length mismatch, echoed range start,
val/raw length mismatch, `OVERLAP < data.vals.length`, the
element-for-element overlap verification against the tail of the
accumulated lists (decoded and raw), and the end-of-range consistency
check.  `offset` is `Math.max(0, initValues.length - OVERLAP)`, which on
`Nat` is truncated subtraction.  Note that in the terminal round
(`rangeTo = none`, i.e. `"*"`) the source returns only
`{ values: newValues, rawValues: newRawValues }` — the reversed last
chunk — and not `concatenatedValues`; this embedding mirrors that. -/
def completeValueRange {V R : Type} [DecidableEq V] [DecidableEq R]
    (server : Nat → RangeChunk V R) :
    Nat → List V → List R → Option (Except String (List V × List R))
  | 0, _, _ => none
  | fuel + 1, initValues, initRawValues =>
    if initValues.length ≠ initRawValues.length then some (.error "Illegal init values")
    else
      let offset := initValues.length - OVERLAP
      let chunk := server offset
      if chunk.rangeFrom ≠ offset then some (.error "Got unwanted range")
      else if chunk.vals.length ≠ chunk.rawvals.length then some (.error "Got weird data")
      else if ¬ OVERLAP < chunk.vals.length then some (.error "Overlap not covered")
      else
        let newValues := chunk.vals.reverse
        let newRawValues := chunk.rawvals.reverse
        if (List.range (initValues.length - offset)).all (fun j =>
            decide (initValues.get? (offset + j) = newValues.get? j) &&
            decide (initRawValues.get? (offset + j) = newRawValues.get? j)) then
          let concatenatedValues := initValues.take offset ++ newValues
          let concatenatedRawValues := initRawValues.take offset ++ newRawValues
          match chunk.rangeTo with
          | none => some (.ok (newValues, newRawValues))
          | some t =>
            if t = offset + newValues.length - 1 then
              completeValueRange server fuel concatenatedValues concatenatedRawValues
            else some (.error "Inconsistent end of range")
        else some (.error "Overlap mismatch")

/-- A server holding 25 values `0,…,24` for the ranged attribute and
answering requests in two chunks: offset 0 is answered with values
0–14 (`rangeTo = 14`), offset 5 with values 5–24 (`rangeTo = "*"`).
Chunks are listed in reverse order, as the real server sends them. -/
def server25 : Nat → RangeChunk Nat Nat := fun o =>
  if o = 0 then ⟨0, some 14, (List.range 15).reverse, (List.range 15).reverse⟩
  else ⟨5, none, ((List.range 25).drop 5).reverse, ((List.range 25).drop 5).reverse⟩

/-- The same 25-value attribute served in a single terminal chunk. -/
def server25once : Nat → RangeChunk Nat Nat := fun _ =>
  ⟨0, none, (List.range 25).reverse, (List.range 25).reverse⟩

/-- `server25` with the second chunk corrupted in the overlap region. -/
def server25corrupt : Nat → RangeChunk Nat Nat := fun o =>
  if o = 0 then ⟨0, some 14, (List.range 15).reverse, (List.range 15).reverse⟩
  else ⟨5, none, (((List.range 25).drop 5).map (· + 1)).reverse,
    (((List.range 25).drop 5).map (· + 1)).reverse⟩

/-- Modelled from the spec: one iteration's LDAP search in the
transitive group lookup.  Per §4.2, each iteration searches
`and(equals objectClass group, equals objectCategory group,
oneof <attr> <frontier>)`, i.e. it returns exactly the groups (from the
directory's finite set of groups) whose membership attribute contains at
least one DN of the frontier.  `groups` lists the group DNs, `memb g d`
says whether group `g`'s attribute contains DN `d`. -/
def stepSearch (groups : List String) (memb : String → String → Bool)
    (frontier : List String) : List String :=
  groups.filter (fun g => frontier.any (fun d => memb g d))

/-- Order-preserving deduplication, as `_.union` performs on its
concatenated arguments (keeping first occurrences). -/
def jsUniq : List String → List String
  | [] => []
  | x :: xs => x :: jsUniq (xs.filter (· ≠ x))
termination_by l => l.length
decreasing_by
  simp only [List.length_cons]
  exact Nat.lt_succ_of_le (xs.length_filter_le _)

/-- `_.union(a, b)`: unique values of the concatenation, in order. -/
def jsUnion (a b : List String) : List String :=
  jsUniq (a ++ b)

/-- `_.difference(a, b)`: the values of `a` not present in `b`. -/
def jsDifference (a b : List String) : List String :=
  a.filter (fun x => !(b.contains x))

/-- The worklist loop of
`rewrite_filter_for_transitive_membership_Helper_transitiveGroupLookup`:
while `toLookup` is non-empty, search for the groups matching the
frontier, merge the frontier into `ret`, and continue with the newly
discovered groups (minus those already accumulated) as the next
frontier.  Fuel bounds the number of iterations; `none` models
non-termination of the source loop. -/
def transitiveGroupLookup (groups : List String) (memb : String → String → Bool) :
    Nat → List String → List String → Option (List String)
  | _, ret, [] => some ret
  | 0, _, _ :: _ => none
  | fuel + 1, ret, toLookup@(_ :: _) =>
    let nextLevelGroups := stepSearch groups memb toLookup
    let ret' := jsUnion ret toLookup
    transitiveGroupLookup groups memb fuel ret' (jsDifference nextLevelGroups ret')

/-- Transitive reachability through the group-membership relation,
starting from the DNs of `S0`: the starting DNs themselves, and,
inductively, every group whose membership attribute contains a reachable
DN. -/
inductive TransReach (groups : List String) (memb : String → String → Bool)
    (S0 : List String) : String → Prop
  | base {d : String} : d ∈ S0 → TransReach groups memb S0 d
  | step {g d : String} : g ∈ groups → memb g d = true →
      TransReach groups memb S0 d → TransReach groups memb S0 g

/-- The constant `buffer_pause_at_length` of ActiveDirectoryHandler.js. -/
def buffer_pause_at_length : Nat := 2000

/-- The constant `buffer_resume_at_length` of ActiveDirectoryHandler.js. -/
def buffer_resume_at_length : Nat := 200

/-- One item of the `rawSearch` event buffer: the `op` field of what the
emitter handlers push (`entry`, `page` with or without its resume
callback, `referral`, `err`, `done`). -/
inductive BItem where
  | entry
  | pageCb
  | pageNoCb
  | referral
  | err
  | done
deriving DecidableEq, Repr

/-- Phase of the ldapjs producer, the environment of the event loop:
`active` (may emit entries, referrals and the next page event),
`awaiting` (has emitted a page event with callback and emits no further
search events until that callback is invoked), `ending` (has emitted the
final, callback-less page event and may emit `end`). -/
inductive Phase where
  | active
  | awaiting
  | ending
deriving DecidableEq, Repr

/-- The state of the `rawSearch` buffering loop: the `buffer` array, the
`should_pause` flag, whether a `resume_callback` is captured (withheld),
whether a `buffer_callback` is parked, the producer phase, whether the
generator loop has exited, and whether the
`assert(!resume_callback)` at a page item has failed. -/
structure BState where
  buffer : List BItem
  shouldPause : Bool
  resumePending : Bool
  bufferCb : Bool
  phase : Phase
  halted : Bool
  assertFailed : Bool
deriving DecidableEq, Repr

/-- The `bufferctl` closure of `rawSearch`: set `should_pause` when the
buffer length exceeds `buffer_pause_at_length`; when the length is below
`buffer_resume_at_length` and `should_pause` is set, clear it and invoke
a withheld resume callback if any (which lets the producer continue);
finally wake a parked `buffer_callback` when the buffer is non-empty.
It runs on every producer push and inside `waitUntilBufferIsNonempty`,
but not when the generator loop shifts items off the buffer. -/
def bufferctl (s : BState) : BState :=
  let s1 :=
    if buffer_pause_at_length < s.buffer.length ∧ s.shouldPause = false then
      { s with shouldPause := true }
    else s
  let s2 :=
    if s1.buffer.length < buffer_resume_at_length ∧ s1.shouldPause = true then
      if s1.resumePending = true then
        { s1 with shouldPause := false, resumePending := false, phase := Phase.active }
      else
        { s1 with shouldPause := false }
    else s1
  if 0 < s2.buffer.length ∧ s2.bufferCb = true then { s2 with bufferCb := false } else s2

/-- The events of the loop: a producer push (one emitter event), one
iteration of the consuming generator loop (`buffer.shift()` and the
switch on `item.op`), or the consumer parking on an empty buffer
(`waitUntilBufferIsNonempty`). -/
inductive BAct where
  | push (e : BItem)
  | consume
  | park

/-- Which pushes the environment (ldapjs) can perform in each phase:
search events only while `active`; the next page only when the previous
page's callback was invoked (`active`); `end` only after the final page;
transport errors at any time. -/
def pushAllowed (s : BState) : BItem → Bool
  | .entry => s.phase == Phase.active
  | .referral => s.phase == Phase.active
  | .err => true
  | .pageCb => s.phase == Phase.active
  | .pageNoCb => s.phase == Phase.active
  | .done => s.phase == Phase.ending

/-- Producer phase after a push: a page with callback suspends the
producer until the callback is invoked; the final page moves it to
`ending`. -/
def phaseAfterPush (s : BState) : BItem → Phase
  | .pageCb => Phase.awaiting
  | .pageNoCb => Phase.ending
  | _ => s.phase

/-- One transition of the `rawSearch` event loop.  A push appends the
item and runs `bufferctl`.  A consume shifts the first item: an entry is
yielded; a page item first runs `assert(!resume_callback)` (failure sets
`assertFailed`), then either withholds the callback (when
`should_pause`) or invokes it at once; referral/err/done throw or end
the loop.  A park happens only on an empty buffer with no parked
callback, and runs `bufferctl`.  `none` means the action is not enabled
in this state. -/
def step (s : BState) : BAct → Option BState
  | .push e =>
    if s.assertFailed = true then none
    else if pushAllowed s e then
      some (bufferctl { s with buffer := s.buffer ++ [e], phase := phaseAfterPush s e })
    else none
  | .consume =>
    if s.halted = true ∨ s.assertFailed = true then none
    else
      match s.buffer with
      | [] => none
      | item :: rest =>
        let s' := { s with buffer := rest }
        match item with
        | .entry => some s'
        | .pageCb =>
          if s.resumePending = true then some { s' with assertFailed := true }
          else if s'.shouldPause = true then some { s' with resumePending := true }
          else some { s' with phase := Phase.active }
        | .pageNoCb =>
          if s.resumePending = true then some { s' with assertFailed := true }
          else some s'
        | .referral => some { s' with halted := true }
        | .err => some { s' with halted := true }
        | .done => some { s' with halted := true }
  | .park =>
    if s.halted = true ∨ s.assertFailed = true then none
    else
      match s.buffer with
      | [] => if s.bufferCb = true then none else some (bufferctl { s with bufferCb := true })
      | _ :: _ => none

/-- The initial state of `rawSearch`'s loop: empty buffer, no pause, no
withheld callbacks, producer active. -/
def initBState : BState :=
  ⟨[], false, false, false, Phase.active, false, false⟩

/-- The reachable states of the event loop. -/
inductive BReachable : BState → Prop
  | init : BReachable initBState
  | step {s s' : BState} {a : BAct} : BReachable s → step s a = some s' → BReachable s'

/-- The inductive invariant of the event loop: the page assertion has
never failed; a withheld callback implies the pause flag and an awaiting
producer; the with-callback page items in the buffer plus the withheld
callback number exactly one when the producer awaits and zero otherwise;
and no callback-less (final) page item is buffered while the producer is
awaiting or active. -/
def BInv (s : BState) : Prop :=
  s.assertFailed = false ∧
  (s.resumePending = true → s.shouldPause = true) ∧
  (s.resumePending = true → s.phase = Phase.awaiting) ∧
  (s.buffer.count .pageCb + (if s.resumePending = true then 1 else 0) =
    (if s.phase = Phase.awaiting then 1 else 0)) ∧
  (s.phase = Phase.awaiting → BItem.pageNoCb ∉ s.buffer) ∧
  (s.phase = Phase.active → BItem.pageNoCb ∉ s.buffer)

/-- A JavaScript value as stored in array slots and passed to the
compiler, at the heap level: a primitive string, another primitive
(modelled as a number), or a reference to an array object in the heap. -/
inductive JSV where
  | str : String → JSV
  | num : Int → JSV
  | ref : Nat → JSV
deriving DecidableEq, Repr

/-- The heap of array objects: address `a` holds the element list
`σ.get? a`.  New arrays are appended, so addresses are never reused. -/
abbrev Store := List (List JSV)

/-- Allocation of a fresh array object: append it and return its
address. -/
def alloc (σ : Store) (node : List JSV) : Store × Nat :=
  (σ ++ [node], σ.length)

/-- `synthattribute` at the heap level (it only reads a primitive). -/
def synthattributeS : JSV → Except String String
  | .str a => if attributeNameOK a then .ok a else .error "assert: attribute regex"
  | _ => .error "assert: typeof a === string"

/-- `synthvalue` at the heap level. -/
def synthvalueS : JSV → Except String String
  | .str a => if valueOK a then .ok (escapeValue a) else .error "assert: value regex"
  | _ => .error "assert: typeof a === string"

/-- `b.has(i[1])` at the heap level. -/
def boolAttrHitS (b : List String) : JSV → Bool
  | .str a => b.contains a
  | _ => false

/-- `i[2] === "TRUE" || i[2] === "FALSE"` at the heap level. -/
def isBoolLiteralS : JSV → Bool
  | .str "TRUE" => true
  | .str "FALSE" => true
  | _ => false

/-- Heap-threaded compile-and-join of the `and`/`or` children. -/
def joinCompS (F : Store → JSV → Option (Except String String × Store)) :
    Store → List JSV → Option (Except String String × Store)
  | σ, [] => some (.ok "", σ)
  | σ, x :: xs =>
    match F σ x with
    | none => none
    | some (.error e, σ1) => some (.error e, σ1)
    | some (.ok s, σ1) =>
      match joinCompS F σ1 xs with
      | none => none
      | some (.error e, σ2) => some (.error e, σ2)
      | some (.ok t, σ2) => some (.ok (s ++ t), σ2)

/-- Allocation of the `["equals", attribute, val]` arrays that the
`oneof` case builds, one per value, returning the references in order. -/
def allocEqArrays (attrArg : JSV) : Store → List JSV → Store × List JSV
  | σ, [] => (σ, [])
  | σ, v :: rest =>
    let p1 := alloc σ [JSV.str "equals", attrArg, v]
    let p2 := allocEqArrays attrArg p1.1 rest
    (p2.1, JSV.ref p1.2 :: p2.2)

/-- The filter compiler `ldapfilter(i, b)` once more, now as a
heap-level function: the expression argument is a `JSV` (normally a
reference into the store), every array dereference is a store read, and
the arrays the source constructs (`["false"]`,
`["or", ["equals", A, v1], …]`, `["has", "objectClass"]`,
`["not", ["true"]]`) are allocated as fresh objects.  The store is
threaded and returned so that the frame property (claim C9: the
argument expression is never mutated) is a statement about this
function.  No case writes to an existing address. -/
def ldapfilterS : Nat → Store → JSV → List String → Option (Except String String × Store)
  | 0, _, _, _ => none
  | _ + 1, σ, .str _, _ => some (.error "assert: Array.isArray(i)", σ)
  | _ + 1, σ, .num _, _ => some (.error "assert: Array.isArray(i)", σ)
  | f + 1, σ, .ref addr, b =>
    match σ.get? addr with
    | none => some (.error "dangling array reference", σ)
    | some [] => some (.error "assert: l > 0", σ)
    | some (op :: args) =>
      match op with
      | .str "and" =>
        match args with
        | [] => some (.error "assert: l >= 2", σ)
        | [x] => ldapfilterS f σ x b
        | _ =>
          match joinCompS (fun σ x => ldapfilterS f σ x b) σ args with
          | none => none
          | some (.error e, σ1) => some (.error e, σ1)
          | some (.ok s, σ1) => some (.ok ("(&" ++ s ++ ")"), σ1)
      | .str "or" =>
        match args with
        | [] => some (.error "assert: l >= 2", σ)
        | [x] => ldapfilterS f σ x b
        | _ =>
          match joinCompS (fun σ x => ldapfilterS f σ x b) σ args with
          | none => none
          | some (.error e, σ1) => some (.error e, σ1)
          | some (.ok s, σ1) => some (.ok ("(|" ++ s ++ ")"), σ1)
      | .str "not" =>
        match args with
        | [x] =>
          match ldapfilterS f σ x b with
          | none => none
          | some (.error e, σ1) => some (.error e, σ1)
          | some (.ok s, σ1) => some (.ok ("(!" ++ s ++ ")"), σ1)
        | _ => some (.error "assert: l === 2", σ)
      | .str "equals" =>
        match args with
        | [a, v] =>
          if boolAttrHitS b a && !isBoolLiteralS v then
            some (.error "boolean attribute can only be equal to TRUE or FALSE", σ)
          else
            match synthattributeS a with
            | .error e => some (.error e, σ)
            | .ok sa =>
              match synthvalueS v with
              | .error e => some (.error e, σ)
              | .ok sv => some (.ok ("(" ++ sa ++ "=" ++ sv ++ ")"), σ)
        | _ => some (.error "assert: l === 3", σ)
      | .str "beginswith" =>
        match args with
        | [a, v] =>
          if boolAttrHitS b a then
            some (.error "boolean attribute is not allowed in beginswith expressions", σ)
          else
            match synthattributeS a with
            | .error e => some (.error e, σ)
            | .ok sa =>
              match synthvalueS v with
              | .error e => some (.error e, σ)
              | .ok sv => some (.ok ("(" ++ sa ++ "=" ++ sv ++ "*)"), σ)
        | _ => some (.error "assert: l === 3", σ)
      | .str "endswith" =>
        match args with
        | [a, v] =>
          if boolAttrHitS b a then
            some (.error "boolean attribute is not allowed in endswith expressions", σ)
          else
            match synthattributeS a with
            | .error e => some (.error e, σ)
            | .ok sa =>
              match synthvalueS v with
              | .error e => some (.error e, σ)
              | .ok sv => some (.ok ("(" ++ sa ++ "=*" ++ sv ++ ")"), σ)
        | _ => some (.error "assert: l === 3", σ)
      | .str "contains" =>
        match args with
        | [a, v] =>
          if boolAttrHitS b a then
            some (.error "boolean attribute is not allowed in contains expressions", σ)
          else
            match synthattributeS a with
            | .error e => some (.error e, σ)
            | .ok sa =>
              match synthvalueS v with
              | .error e => some (.error e, σ)
              | .ok sv => some (.ok ("(" ++ sa ++ "=*" ++ sv ++ "*)"), σ)
        | _ => some (.error "assert: l === 3", σ)
      | .str "has" =>
        match args with
        | [a] =>
          match synthattributeS a with
          | .error e => some (.error e, σ)
          | .ok sa => some (.ok ("(" ++ sa ++ "=*)"), σ)
        | _ => some (.error "assert: l === 2", σ)
      | .str "oneof" =>
        match args with
        | [a, vsArg] =>
          match vsArg with
          | .ref ar =>
            match σ.get? ar with
            | none => some (.error "dangling array reference", σ)
            | some arrValue =>
              if arrValue.isEmpty then
                let p := alloc σ [JSV.str "false"]
                ldapfilterS f p.1 (.ref p.2) b
              else
                let pEq := allocEqArrays a σ arrValue
                let pOr := alloc pEq.1 (JSV.str "or" :: pEq.2)
                ldapfilterS f pOr.1 (.ref pOr.2) b
          | _ => some (.error "assert: isArray(arrValue)", σ)
        | _ => some (.error "assert: l === 3", σ)
      | .str "true" =>
        match args with
        | [] =>
          let p := alloc σ [JSV.str "has", JSV.str "objectClass"]
          ldapfilterS f p.1 (.ref p.2) b
        | _ => some (.error "assert: l === 1", σ)
      | .str "false" =>
        match args with
        | [] =>
          let p1 := alloc σ [JSV.str "true"]
          let p2 := alloc p1.1 [JSV.str "not", JSV.ref p1.2]
          ldapfilterS f p2.1 (.ref p2.2) b
        | _ => some (.error "assert: l === 1", σ)
      | .str _ => some (.error "Error in LDAP filter expression", σ)
      | _ => some (.error "assert: typeof op === string", σ)

/-- The store `σ'` extends `σ`: nothing below `σ.length` changed (no
existing array was mutated); only fresh objects may have been appended. -/
def StoreExtends (σ σ' : Store) : Prop :=
  σ.length ≤ σ'.length ∧ ∀ a, a < σ.length → σ'.get? a = σ.get? a

/-- The expression tree denoted by a value in a heap: primitives stay
themselves, a reference decodes to the array of decoded elements.  The
fuel bounds the decoding depth (`none` for fuel exhaustion or a dangling
reference); structural equality of these trees is the claim's notion of
the expression being unchanged. -/
inductive JTree where
  | str : String → JTree
  | num : Int → JTree
  | arr : List JTree → JTree

/-- Decode each element of an array object. -/
def readTreeList (F : JSV → Option JTree) : List JSV → Option (List JTree)
  | [] => some []
  | x :: xs =>
    match F x, readTreeList F xs with
    | some t, some ts => some (t :: ts)
    | _, _ => none

/-- Decode the expression tree reachable from a value in a heap. -/
def readTree : Nat → Store → JSV → Option JTree
  | 0, _, _ => none
  | _ + 1, _, .str s => some (.str s)
  | _ + 1, _, .num n => some (.num n)
  | g + 1, σ, .ref a =>
    match σ.get? a with
    | none => none
    | some elems =>
      match readTreeList (readTree g σ) elems with
      | none => none
      | some ts => some (.arr ts)

/-- Every reference stored in a heap cell points below the heap's
length. -/
def ClosedStore (σ : Store) : Prop :=
  ∀ node ∈ σ, ∀ x ∈ node, ∀ a : Nat, x = JSV.ref a → a < σ.length

/-- A value's own reference, if any, points below the heap's length. -/
def ClosedVal (σ : Store) (v : JSV) : Prop :=
  ∀ a : Nat, v = JSV.ref a → a < σ.length

/-- A concrete three-group membership relation: `g1`'s attribute holds
`d0`, `g2`'s holds `g1`, `g3`'s holds nothing. -/
def memExample (g d : String) : Bool :=
  (g == "g1" && d == "d0") || (g == "g2" && d == "g1")

example : ldapfilter 5 (.arr [.str "false"]) [] = some (.ok "(!(objectClass=*))") := rfl

example :
    ldapfilter 2 (.arr [.str "and", .arr [.str "equals", .str "cn", .str "lkj*("],
      .arr [.str "beginswith", .str "cn", .str "lkj*("]]) [] =
    some (.ok "(&(cn=lkj\\2a\\28)(cn=lkj\\2a\\28*))") := rfl

lemma joinComp_mono (F G : JSVal → Option (Except String String))
    (h : ∀ x r, F x = some r → G x = some r) :
    ∀ (args : List JSVal) (r), joinComp F args = some r → joinComp G args = some r := by
  intro args
  induction args with
  | nil => simp [joinComp]
  | cons x xs ih =>
    intro r hr
    simp only [joinComp] at hr ⊢
    cases hF : F x with
    | none => simp [hF] at hr
    | some ex =>
      rw [h x ex hF]
      cases ex with
      | error e => simpa [hF] using hr
      | ok s =>
        simp only [hF] at hr
        cases hJ : joinComp F xs with
        | none => simp [hJ] at hr
        | some ex2 =>
          rw [ih _ hJ]
          simpa [hJ] using hr

/-- Fuel monotonicity: once `ldapfilter` returns a value (result or thrown
error) at some fuel, any larger fuel returns the same value. -/
lemma ldapfilter_mono :
    ∀ (f g : Nat) (i : JSVal) (b : List String) (r),
      ldapfilter f i b = some r → f ≤ g → ldapfilter g i b = some r := by
  intro f
  induction f with
  | zero => intro g i b r h _; simp [ldapfilter] at h
  | succ f ih =>
    intro g i b r h hle
    obtain ⟨g', rfl⟩ : ∃ g', g = g' + 1 := ⟨g - 1, by omega⟩
    have hle' : f ≤ g' := by omega
    cases i with
    | str s => simpa [ldapfilter] using h
    | num n => simpa [ldapfilter] using h
    | arr l =>
      cases l with
      | nil => simpa [ldapfilter] using h
      | cons op args =>
        simp only [ldapfilter] at h ⊢
        split at h <;>
          (repeat' (first
            | exact h
            | exact ih _ _ _ _ h hle'
            | exact Option.noConfusion h
            | (rename_i heq; rw [ih _ _ _ _ heq hle']; exact h)
            | (rename_i heq;
               rw [joinComp_mono _ _ (fun x rr hx => ih g' x b rr hx hle') _ _ heq];
               exact h)
            | (rename_i hc; rw [if_pos hc]; exact ih _ _ _ _ h hle')
            | (rename_i hc; rw [if_neg hc]; exact ih _ _ _ _ h hle')
            | split at h))

lemma ldapfilter_oneof_cons (f : Nat) (a v : JSVal) (vs : List JSVal) (b : List String) :
    ldapfilter (f + 1) (.arr [.str "oneof", a, .arr (v :: vs)]) b =
      ldapfilter f
        (.arr (.str "or" :: (v :: vs).map (fun val => .arr [.str "equals", a, val]))) b := rfl

lemma ldapfilter_oneof_empty (f : Nat) (a : JSVal) (b : List String) :
    ldapfilter (f + 1) (.arr [.str "oneof", a, .arr []]) b =
      ldapfilter f (.arr [.str "false"]) b := rfl

lemma ldapfilter_false_eval (f : Nat) (b : List String) :
    ldapfilter (f + 4) (.arr [.str "false"]) b = some (.ok "(!(objectClass=*))") := rfl

/-- C2: `oneof A []` compiles exactly as `false` does, to
`"(!(objectClass=*))"`; and for a non-empty value list, `oneof A vs`
produces a string identical to the `or` of the `equals A vi`, whenever
both compilations return a string. -/
theorem C2_oneof_compiles_as_or (b : List String) (A : String)
    (hA : attributeNameOK A = true) :
    (∀ f, 5 ≤ f →
      ldapfilter f (.arr [.str "oneof", .str A, .arr []]) b =
          some (.ok "(!(objectClass=*))") ∧
      ldapfilter f (.arr [.str "false"]) b = some (.ok "(!(objectClass=*))")) ∧
    (∀ (vs : List JSVal) (f g : Nat) (r s : String), vs ≠ [] →
      ldapfilter f (.arr [.str "oneof", .str A, .arr vs]) b = some (.ok r) →
      ldapfilter g
          (.arr (.str "or" :: vs.map (fun v => .arr [.str "equals", .str A, v]))) b =
        some (.ok s) →
      r = s) := by
  constructor
  · intro f hf
    obtain ⟨f', rfl⟩ : ∃ f', f = f' + 5 := ⟨f - 5, by omega⟩
    exact ⟨rfl, rfl⟩
  · intro vs f g r s hne h1 h2
    cases vs with
    | nil => exact absurd rfl hne
    | cons v vs' =>
      cases f with
      | zero => simp [ldapfilter] at h1
      | succ f' =>
        rw [ldapfilter_oneof_cons] at h1
        have e1 := ldapfilter_mono f' (max f' g) _ b _ h1 (Nat.le_max_left _ _)
        have e2 := ldapfilter_mono g (max f' g) _ b _ h2 (Nat.le_max_right _ _)
        rw [e1] at e2
        injection e2 with e2
        injection e2

theorem C2_witness :
    attributeNameOK "abc" = true ∧
    ldapfilter 5 (.arr [.str "oneof", .str "abc", .arr []]) [] =
      some (.ok "(!(objectClass=*))") := by
  refine ⟨by decide, ?_⟩
  exact ((C2_oneof_compiles_as_or [] "abc" (by decide)).1 5 (by decide)).1

lemma isBoolLiteral_false_of_ne {v : JSVal} (h1 : v ≠ .str "TRUE") (h2 : v ≠ .str "FALSE") :
    isBoolLiteral v = false := by
  cases v with
  | str s =>
    by_cases hs : s = "TRUE"
    · exact absurd (by rw [hs]) h1
    · by_cases hs' : s = "FALSE"
      · exact absurd (by rw [hs']) h2
      · simp [isBoolLiteral]
  | num n => rfl
  | arr l => rfl

/-- C3: for an attribute in the boolean-attribute set, `equals` compiles
successfully only for the exact values `"TRUE"` and `"FALSE"` and throws a
validation error for every other value (including `"true"`, `"false"` and
non-strings), while `beginswith`, `endswith` and `contains` throw for
every value. -/
theorem C3_boolean_attribute_checks (b : List String) (A : String) (hA : b.contains A = true)
    (f : Nat) (hf : 1 ≤ f) :
    (∀ v : JSVal, v ≠ .str "TRUE" → v ≠ .str "FALSE" →
      ∃ e, ldapfilter f (.arr [.str "equals", .str A, v]) b = some (.error e)) ∧
    (∀ (v : JSVal) (s : String),
      ldapfilter f (.arr [.str "equals", .str A, v]) b = some (.ok s) →
      v = .str "TRUE" ∨ v = .str "FALSE") ∧
    (∀ v : JSVal, ∃ e,
      ldapfilter f (.arr [.str "beginswith", .str A, v]) b = some (.error e)) ∧
    (∀ v : JSVal, ∃ e,
      ldapfilter f (.arr [.str "endswith", .str A, v]) b = some (.error e)) ∧
    (∀ v : JSVal, ∃ e,
      ldapfilter f (.arr [.str "contains", .str A, v]) b = some (.error e)) := by
  obtain ⟨f', rfl⟩ : ∃ f', f = f' + 1 := ⟨f - 1, by omega⟩
  have hhit : boolAttrHit b (.str A) = true := hA
  refine ⟨?_, ?_, ?_, ?_, ?_⟩
  · intro v hv1 hv2
    refine ⟨"boolean attribute can only be equal to TRUE or FALSE", ?_⟩
    simp only [ldapfilter]
    rw [hhit, isBoolLiteral_false_of_ne hv1 hv2]
    rfl
  · intro v s h
    by_cases h1 : v = .str "TRUE"
    · exact Or.inl h1
    by_cases h2 : v = .str "FALSE"
    · exact Or.inr h2
    exfalso
    simp only [ldapfilter] at h
    rw [hhit, isBoolLiteral_false_of_ne h1 h2] at h
    simp at h
  · intro v
    refine ⟨"boolean attribute is not allowed in beginswith expressions", ?_⟩
    simp only [ldapfilter]
    rw [hhit]
    rfl
  · intro v
    refine ⟨"boolean attribute is not allowed in endswith expressions", ?_⟩
    simp only [ldapfilter]
    rw [hhit]
    rfl
  · intro v
    refine ⟨"boolean attribute is not allowed in contains expressions", ?_⟩
    simp only [ldapfilter]
    rw [hhit]
    rfl

theorem C3_witness :
    (∃ e, ldapfilter 1 (.arr [.str "equals", .str "boolAttrib1", .str "true"])
      ["boolAttrib1", "boolAttrib2"] = some (.error e)) ∧
    (∃ e, ldapfilter 1 (.arr [.str "contains", .str "boolAttrib1", .str "TRUE"])
      ["boolAttrib1", "boolAttrib2"] = some (.error e)) := by
  have h := C3_boolean_attribute_checks ["boolAttrib1", "boolAttrib2"] "boolAttrib1"
    (by decide) 1 (by decide)
  refine ⟨h.1 (.str "true") ?_ ?_, h.2.2.2.2 (.str "TRUE")⟩
  · intro hcontra; injection hcontra with hs; exact absurd hs (by decide)
  · intro hcontra; injection hcontra with hs; exact absurd hs (by decide)

lemma escStep_split (acc : String) (c : Char) : escStep acc c = acc ++ escStep "" c := by
  unfold escStep
  split
  · rfl
  all_goals split
  all_goals try rfl
  all_goals split
  all_goals try rfl
  all_goals split
  all_goals try rfl
  all_goals split
  all_goals rfl

lemma escFold_acc (l : List Char) : ∀ acc : String,
    l.foldl escStep acc = acc ++ l.foldl escStep "" := by
  induction l with
  | nil => intro acc; simp [String.append_empty]
  | cons c l ih =>
    intro acc
    simp only [List.foldl_cons]
    rw [ih (escStep acc c), ih (escStep "" c), escStep_split acc c, String.append_assoc]

/-- The escaping loop distributes over string concatenation. -/
lemma escapeValue_append (s t : String) :
    escapeValue (s ++ t) = escapeValue s ++ escapeValue t := by
  unfold escapeValue
  rw [String.data_append, List.foldl_append, escFold_acc]

/-- C5: the escaping applied to compiled values replaces exactly the five
special characters `*`, `(`, `)`, `\` and NUL by `\2a`, `\28`, `\29`,
`\5c` and `\00`, leaves every other character unchanged, distributes over
concatenation, and on the concrete value
`"[]{}<>()=*<NUL>\ÅÄÖåäö"` the whole compiler emits exactly
`"(name=[]{}<>\28\29=\2a\00\5cÅÄÖåäö)"`. -/
theorem C5_escaping (f : Nat) (hf : 1 ≤ f) :
    (∀ s t : String, escapeValue (s ++ t) = escapeValue s ++ escapeValue t) ∧
    escapeValue (String.singleton '*') = "\\2a" ∧
    escapeValue (String.singleton '(') = "\\28" ∧
    escapeValue (String.singleton ')') = "\\29" ∧
    escapeValue (String.singleton '\\') = "\\5c" ∧
    escapeValue (String.singleton (Char.ofNat 0)) = "\\00" ∧
    (∀ c : Char, c ≠ '*' → c ≠ '(' → c ≠ ')' → c ≠ '\\' → c ≠ Char.ofNat 0 →
      escapeValue (String.singleton c) = String.singleton c) ∧
    ldapfilter f
        (.arr [.str "equals", .str "name", .str "[]\x7b\x7d<>()=*\u0000\\ÅÄÖåäö"]) [] =
      some (.ok "(name=[]\x7b\x7d<>\\28\\29=\\2a\\00\\5cÅÄÖåäö)") := by
  obtain ⟨f', rfl⟩ : ∃ f', f = f' + 1 := ⟨f - 1, by omega⟩
  refine ⟨escapeValue_append, rfl, rfl, rfl, rfl, rfl, ?_, rfl⟩
  intro c h1 h2 h3 h4 h5
  show escStep "" c = String.singleton c
  unfold escStep
  rw [if_neg h1, if_neg h2, if_neg h3, if_neg h4, if_neg h5]
  rfl

theorem C5_witness :
    escapeValue (String.singleton 'x') = String.singleton 'x' ∧
    ldapfilter 1
        (.arr [.str "equals", .str "name", .str "[]\x7b\x7d<>()=*\u0000\\ÅÄÖåäö"]) [] =
      some (.ok "(name=[]\x7b\x7d<>\\28\\29=\\2a\\00\\5cÅÄÖåäö)") := by
  have h := C5_escaping 1 (by decide)
  exact ⟨h.2.2.2.2.2.2.1 'x' (by decide) (by decide) (by decide) (by decide) (by decide),
    h.2.2.2.2.2.2.2⟩

/-- C7: `getOneObject` returns the unique record when the sequence has
exactly one, fails on an empty sequence, and on a longer sequence fails
as soon as the second record is produced, consuming exactly two records
however long the rest of the sequence is. -/
theorem C7_getOneObject {α : Type} (records : List α) :
    (records = [] → ∃ e, getOneObject records = (.error e, 0)) ∧
    (∀ r, records = [r] → getOneObject records = (.ok r, 1)) ∧
    (2 ≤ records.length →
      ∃ e, (getOneObject records).1 = .error e ∧ (getOneObject records).2 = 2) := by
  refine ⟨?_, ?_, ?_⟩
  · rintro rfl
    exact ⟨_, rfl⟩
  · rintro r rfl
    rfl
  · intro h2
    match records, h2 with
    | r1 :: r2 :: rest, _ =>
      refine ⟨"assert: searchresult.length <= 1", ?_, ?_⟩ <;>
        simp [getOneObject, getOneObjectLoop]

theorem C7_witness :
    getOneObject ([] : List Nat) = (.error "assert: searchresult.length === 1", 0) ∧
    getOneObject [7] = (.ok 7, 1) ∧
    (getOneObject [1, 2, 3, 4]).2 = 2 := by
  refine ⟨rfl, (C7_getOneObject [7]).2.1 7 rfl, ?_⟩
  obtain ⟨e, he1, he2⟩ := (C7_getOneObject [1, 2, 3, 4]).2.2 (by decide)
  exact he2

lemma mul_two_pow_lor_eq_add : ∀ (k a b : Nat), b < 2 ^ k →
    a * 2 ^ k ||| b = a * 2 ^ k + b := by
  intro k
  induction k with
  | zero =>
    intro a b hb
    interval_cases b
    simp
  | succ k ih =>
    intro a b hb
    have hp : (2 : Nat) ^ (k + 1) = 2 * 2 ^ k := by ring
    have hdecomp := Nat.bodd_add_div2 b
    have hb2 : b < 2 * 2 ^ k := by rw [hp] at hb; exact hb
    have hdiv : b.div2 < 2 ^ k := by
      rw [Nat.div2_val]
      omega
    have h1 : a * 2 ^ (k + 1) = Nat.bit false (a * 2 ^ k) := by
      show _ = 2 * (a * 2 ^ k)
      ring
    calc a * 2 ^ (k + 1) ||| b
        = Nat.bit false (a * 2 ^ k) ||| Nat.bit b.bodd b.div2 := by
          rw [Nat.bit_decomp, ← h1]
      _ = Nat.bit (false || b.bodd) (a * 2 ^ k ||| b.div2) := Nat.lor_bit _ _ _ _
      _ = Nat.bit b.bodd (a * 2 ^ k + b.div2) := by rw [Bool.false_or, ih _ _ hdiv]
      _ = a * 2 ^ (k + 1) + b := by
          cases hb' : b.bodd
          · rw [hb'] at hdecomp
            show 2 * (a * 2 ^ k + b.div2) = a * 2 ^ (k + 1) + b
            rw [Nat.div2_val] at hdecomp ⊢
            simp only [Bool.toNat_false] at hdecomp
            have ha : a * 2 ^ (k + 1) = 2 * (a * 2 ^ k) := by ring
            omega
          · rw [hb'] at hdecomp
            show 2 * (a * 2 ^ k + b.div2) + 1 = a * 2 ^ (k + 1) + b
            rw [Nat.div2_val] at hdecomp ⊢
            simp only [Bool.toNat_true] at hdecomp
            have ha : a * 2 ^ (k + 1) = 2 * (a * 2 ^ k) := by ring
            omega

lemma lor_mul_two_pow_eq_add (k a b : Nat) (hb : b < 2 ^ k) :
    b ||| a * 2 ^ k = a * 2 ^ k + b := by
  rw [Nat.lor_comm]
  exact mul_two_pow_lor_eq_add k a b hb

lemma drop_take_four : ∀ (l : List Nat) (k : Nat), k + 4 ≤ l.length →
    (l.drop k).take 4 = [l.getD k 0, l.getD (k + 1) 0, l.getD (k + 2) 0, l.getD (k + 3) 0] := by
  intro l
  induction l with
  | nil => intro k h; simp at h
  | cons x l ih =>
    intro k h
    cases k with
    | zero =>
      match l, h with
      | b :: c :: d :: t, _ => simp [List.getD]
    | succ k =>
      simp only [List.drop_succ_cons, List.getD_cons_succ]
      exact ih k (by simp at h; omega)

lemma strfold_acc : ∀ (l : List String) (acc : String),
    l.foldl (· ++ ·) acc = acc ++ String.join l := by
  intro l
  induction l with
  | nil => intro acc; exact (String.append_empty acc).symm
  | cons y ys ih =>
    intro acc
    show List.foldl (· ++ ·) (acc ++ y) ys = acc ++ String.join (y :: ys)
    rw [ih (acc ++ y)]
    have hj : String.join (y :: ys) = y ++ String.join ys := by
      show List.foldl (· ++ ·) ("" ++ y) ys = _
      rw [ih ("" ++ y), String.empty_append]
    rw [hj, String.append_assoc]

lemma foldl_append_join {β : Type} (g : β → String) :
    ∀ (l : List β) (init : String),
      l.foldl (fun sid i => sid ++ g i) init = init ++ String.join (l.map g) := by
  intro l
  induction l with
  | nil => intro init; exact (String.append_empty init).symm
  | cons x xs ih =>
    intro init
    simp only [List.foldl_cons, List.map_cons]
    rw [ih (init ++ g x)]
    have hj : String.join (g x :: xs.map g) = g x ++ String.join (xs.map g) := by
      show List.foldl (· ++ ·) ("" ++ g x) (xs.map g) = _
      rw [strfold_acc _ ("" ++ g x), String.empty_append]
    rw [hj, String.append_assoc]

lemma drop_take_six : ∀ (l : List Nat) (k : Nat), k + 6 ≤ l.length →
    (l.drop k).take 6 = [l.getD k 0, l.getD (k + 1) 0, l.getD (k + 2) 0, l.getD (k + 3) 0,
      l.getD (k + 4) 0, l.getD (k + 5) 0] := by
  intro l
  induction l with
  | nil => intro k h; simp at h
  | cons x l ih =>
    intro k h
    cases k with
    | zero =>
      match l, h with
      | b :: c :: d :: e :: f :: t, _ => simp [List.getD]
    | succ k =>
      simp only [List.drop_succ_cons, List.getD_cons_succ]
      exact ih k (by simp at h; omega)

lemma getD_lt_256 {b : List Nat} (hbytes : ∀ x ∈ b, x < 256) (j : Nat) :
    b.getD j 0 < 256 := by
  rcases Nat.lt_or_ge j b.length with hj | hj
  · rw [List.getD_eq_getElem b 0 hj]
    exact hbytes _ (List.getElem_mem hj)
  · rw [List.getD_eq_default _ _ hj]
    omega

/-- C8: the SID decoder succeeds exactly when the buffer has at least 8
bytes, byte 0 (the revision) equals 1 and the length is `8 + 4*N` with
`N` byte 1; and on success it returns
`"S-<revision>-<authority>-<sa1>-…-<saN>"`, the authority being the
48-bit big-endian integer of bytes 2–7 and each sub-authority the 32-bit
little-endian integer of bytes `8+4i` to `11+4i`, in decimal. -/
theorem C8_sid_decoder (b : List Nat) (hbytes : ∀ x ∈ b, x < 256) :
    ((∃ s, ldapBufferToSid b = .ok s) ↔
      8 ≤ b.length ∧ b.getD 0 0 = 1 ∧ b.length = 8 + 4 * b.getD 1 0) ∧
    (8 ≤ b.length → b.getD 0 0 = 1 → b.length = 8 + 4 * b.getD 1 0 →
      ldapBufferToSid b = .ok (sidSpec b)) := by
  have p8 : (2 : Nat) ^ 8 = 256 := by norm_num
  have p16 : (2 : Nat) ^ 16 = 65536 := by norm_num
  have p24 : (2 : Nat) ^ 24 = 16777216 := by norm_num
  have p32 : (2 : Nat) ^ 32 = 4294967296 := by norm_num
  have p40 : (2 : Nat) ^ 40 = 1099511627776 := by norm_num
  have hgd := getD_lt_256 hbytes
  have main : 8 ≤ b.length → b.getD 0 0 = 1 → b.length = 8 + 4 * b.getD 1 0 →
      ldapBufferToSid b = .ok (sidSpec b) := by
    intro h8 h0 h1
    unfold ldapBufferToSid
    rw [if_pos h8, if_pos h0, if_pos h1]
    unfold sidSpec
    dsimp only
    congr 1
    rw [foldl_append_join]
    have hsid0 : "S-" ++ toString (b.getD 0 0) ++ "-" ++
        toString (b.getD 2 0 <<< 40 ||| b.getD 3 0 <<< 32 ||| b.getD 4 0 <<< 24 |||
          b.getD 5 0 <<< 16 ||| b.getD 6 0 <<< 8 ||| b.getD 7 0) =
        "S-1-" ++ toString (beBytes ((b.drop 2).take 6)) := by
      rw [h0]
      have hauth : b.getD 2 0 <<< 40 ||| b.getD 3 0 <<< 32 ||| b.getD 4 0 <<< 24 |||
          b.getD 5 0 <<< 16 ||| b.getD 6 0 <<< 8 ||| b.getD 7 0 =
          beBytes ((b.drop 2).take 6) := by
        rw [drop_take_six b 2 (by omega)]
        simp only [Nat.shiftLeft_eq, Nat.lor_assoc, beBytes, List.foldl_cons, List.foldl_nil]
        rw [mul_two_pow_lor_eq_add 8 _ _ (by rw [p8]; exact hgd 7)]
        rw [mul_two_pow_lor_eq_add 16 _ _
          (by rw [p16]; have := hgd 6; have := hgd 7; rw [p8]; omega)]
        rw [mul_two_pow_lor_eq_add 24 _ _
          (by rw [p24]; have := hgd 5; have := hgd 6; have := hgd 7; rw [p8, p16]; omega)]
        rw [mul_two_pow_lor_eq_add 32 _ _
          (by rw [p32]; have h4 := hgd 4; have := hgd 5; have := hgd 6; have := hgd 7
              rw [p8, p16, p24]; omega)]
        rw [mul_two_pow_lor_eq_add 40 _ _
          (by rw [p40]; have := hgd 3; have := hgd 4; have := hgd 5; have := hgd 6
              have := hgd 7; rw [p8, p16, p24, p32]; omega)]
        rw [p8, p16, p24, p32, p40]
        norm_num
        omega
      rw [hauth]
      rfl
    rw [hsid0]
    rw [String.append_assoc, String.append_assoc]
    congr 2
    apply congrArg
    apply List.map_congr_left
    intro i hi
    rw [List.mem_range] at hi
    congr 1
    have hle : 8 + 4 * i + 4 ≤ b.length := by rw [h1]; omega
    rw [drop_take_four b (8 + 4 * i) hle]
    simp only [Nat.shiftLeft_eq, leBytes, List.foldr_cons, List.foldr_nil]
    rw [lor_mul_two_pow_eq_add 8 _ _ (by rw [p8]; exact hgd _)]
    rw [lor_mul_two_pow_eq_add 16 _ _
      (by rw [p16]; have := hgd (8 + 4 * i); have := hgd (8 + 4 * i + 1); rw [p8]; omega)]
    rw [lor_mul_two_pow_eq_add 24 _ _
      (by rw [p24]; have := hgd (8 + 4 * i); have := hgd (8 + 4 * i + 1)
          have := hgd (8 + 4 * i + 2); rw [p8, p16]; omega)]
    rw [p8, p16, p24]
    congr 1
    omega
  refine ⟨⟨?_, ?_⟩, main⟩
  · rintro ⟨s, hs⟩
    by_cases h8 : 8 ≤ b.length
    · by_cases h0 : b.getD 0 0 = 1
      · by_cases h1 : b.length = 8 + 4 * b.getD 1 0
        · exact ⟨h8, h0, h1⟩
        · unfold ldapBufferToSid at hs
          rw [if_pos h8, if_pos h0, if_neg h1] at hs
          exact Except.noConfusion hs
      · unfold ldapBufferToSid at hs
        rw [if_pos h8, if_neg h0] at hs
        exact Except.noConfusion hs
    · unfold ldapBufferToSid at hs
      rw [if_neg h8] at hs
      exact Except.noConfusion hs
  · rintro ⟨h8, h0, h1⟩
    exact ⟨_, main h8 h0 h1⟩

theorem C8_witness :
    ldapBufferToSid [1, 2, 0, 0, 0, 0, 0, 5, 21, 0, 0, 0, 7, 1, 0, 0] =
      .ok (sidSpec [1, 2, 0, 0, 0, 0, 0, 5, 21, 0, 0, 0, 7, 1, 0, 0]) ∧
    sidSpec [1, 2, 0, 0, 0, 0, 0, 5, 21, 0, 0, 0, 7, 1, 0, 0] = "S-1-5-21-263" :=
  ⟨(C8_sid_decoder [1, 2, 0, 0, 0, 0, 0, 5, 21, 0, 0, 0, 7, 1, 0, 0]
      (by decide)).2 (by decide) (by decide) (by decide), by decide⟩

/-- C10: the shape rules of the `select` validation hold (`"*"` accepted,
empty arrays, non-arrays and arrays with non-string members rejected,
`controls` and `dn` rejected), but contrary to the claim, a selected name
that fails the attribute-name pattern and is not a virtual name is
accepted without any error, because the imported `AttributeNameRE` is
`undefined` and `"…".match(undefined)` matches every string. -/
theorem C10_select_validation :
    getObjects_validate_select (.str "*") = .ok true ∧
    (∃ e, getObjects_validate_select (.arr []) = .error e) ∧
    (∃ e, getObjects_validate_select (.num 3) = .error e) ∧
    (∃ e, getObjects_validate_select (.str "cn") = .error e) ∧
    (∃ e, getObjects_validate_select (.arr [.str "cn", .num 0]) = .error e) ∧
    (∃ e, getObjects_validate_select (.arr [.str "cn", .str "controls"]) = .error e) ∧
    (∃ e, getObjects_validate_select (.arr [.str "dn"]) = .error e) ∧
    attributeNameOK "#bad name!" = false ∧
    "#bad name!" ≠ "_transitive_member" ∧
    "#bad name!" ≠ "_transitive_memberOf" ∧
    getObjects_validate_select (.arr [.str "#bad name!"]) = .ok false := by
  exact ⟨rfl, ⟨_, rfl⟩, ⟨_, rfl⟩, ⟨_, rfl⟩, ⟨_, rfl⟩, ⟨_, rfl⟩, ⟨_, rfl⟩,
    by decide, by decide, by decide, rfl⟩

/-- C1: on a server that terminates the ranged attribute with `"*"`,
`completeValueRange` terminates, reverses every chunk and verifies the
10-value overlap (a corrupted overlap region is a fatal error, and a
single terminal chunk is returned in full range order) — but when more
than one round is needed it returns only the final chunk: for the
25-value attribute served as chunks 0–14 and 5–24 it returns values
5–24, dropping the already-fetched prefix 0–4 instead of returning the
concatenation of all chunks. -/
theorem C1_completeValueRange_eval :
    completeValueRange server25once 1 [] [] =
      some (.ok (List.range 25, List.range 25)) ∧
    (∃ e, completeValueRange server25corrupt 2 [] [] = some (.error e)) ∧
    completeValueRange server25 2 [] [] =
      some (.ok ((List.range 25).drop 5, (List.range 25).drop 5)) ∧
    (List.range 25).drop 5 ≠ List.range 25 ∧
    List.range 15 ++ ((List.range 25).drop 15) = List.range 25 := by
  refine ⟨rfl, ⟨"Overlap mismatch", rfl⟩, rfl, by decide, by decide⟩

lemma mem_jsUniq : ∀ (l : List String) (x : String), x ∈ jsUniq l ↔ x ∈ l := by
  intro l
  induction l using jsUniq.induct with
  | case1 => simp [jsUniq]
  | case2 y ys ih =>
    intro x
    rw [jsUniq]
    by_cases hxy : x = y
    · subst hxy; simp
    · simp only [List.mem_cons, ih, List.mem_filter]
      constructor
      · rintro (rfl | ⟨hmem, _⟩)
        · exact absurd rfl hxy
        · exact Or.inr hmem
      · rintro (rfl | hmem)
        · exact absurd rfl hxy
        · exact Or.inr ⟨hmem, by simp [hxy]⟩

lemma mem_jsUnion {a b : List String} {x : String} :
    x ∈ jsUnion a b ↔ x ∈ a ∨ x ∈ b := by
  rw [jsUnion, mem_jsUniq, List.mem_append]

lemma mem_jsDifference {a b : List String} {x : String} :
    x ∈ jsDifference a b ↔ x ∈ a ∧ x ∉ b := by
  rw [jsDifference, List.mem_filter]
  simp

lemma mem_stepSearch {groups : List String} {memb : String → String → Bool}
    {frontier : List String} {g : String} :
    g ∈ stepSearch groups memb frontier ↔
      g ∈ groups ∧ ∃ d ∈ frontier, memb g d = true := by
  rw [stepSearch, List.mem_filter]
  simp

lemma tgl_exit (groups : List String) (memb : String → String → Bool) (S0 : List String) :
    ∀ (fuel : Nat) (ret toLookup : List String),
      (∀ x ∈ ret, TransReach groups memb S0 x) →
      (∀ x ∈ toLookup, TransReach groups memb S0 x) →
      (∀ x ∈ S0, x ∈ ret ∨ x ∈ toLookup) →
      (∀ g ∈ stepSearch groups memb ret, g ∈ ret ∨ g ∈ toLookup) →
      (∀ x ∈ toLookup, x ∉ ret) →
      (∀ x ∈ toLookup, x ∈ S0 ∨ x ∈ groups) →
      (((S0 ++ groups).toFinset \ ret.toFinset).card < fuel ∨ toLookup = []) →
      ∃ r, transitiveGroupLookup groups memb fuel ret toLookup = some r ∧
        (∀ x ∈ r, TransReach groups memb S0 x) ∧
        (∀ x ∈ S0, x ∈ r) ∧
        (∀ g ∈ stepSearch groups memb r, g ∈ r) := by
  intro fuel
  induction fuel with
  | zero =>
    intro ret toLookup hretR hlookR hS0 hclose hdisj huniv hfuel
    cases toLookup with
    | cons y ys =>
      rcases hfuel with h | h
      · omega
      · exact absurd h (by simp)
    | nil =>
      refine ⟨ret, rfl, hretR, ?_, ?_⟩
      · intro x hx
        rcases hS0 x hx with h | h
        · exact h
        · exact absurd h (by simp)
      · intro g hg
        rcases hclose g hg with h | h
        · exact h
        · exact absurd h (by simp)
  | succ fuel ih =>
    intro ret toLookup hretR hlookR hS0 hclose hdisj huniv hfuel
    cases toLookup with
    | nil =>
      refine ⟨ret, rfl, hretR, ?_, ?_⟩
      · intro x hx
        rcases hS0 x hx with h | h
        · exact h
        · exact absurd h (by simp)
      · intro g hg
        rcases hclose g hg with h | h
        · exact h
        · exact absurd h (by simp)
    | cons y ys =>
      show ∃ r, transitiveGroupLookup groups memb fuel
        (jsUnion ret (y :: ys))
        (jsDifference (stepSearch groups memb (y :: ys)) (jsUnion ret (y :: ys))) = some r ∧ _
      set toLookup := y :: ys with htl
      set ret' := jsUnion ret toLookup with hret'
      set toLookup' := jsDifference (stepSearch groups memb toLookup) ret' with htl'
      have hmemret' : ∀ x, x ∈ ret' ↔ x ∈ ret ∨ x ∈ toLookup := fun x => mem_jsUnion
      have hmemtl' : ∀ x, x ∈ toLookup' ↔
          x ∈ stepSearch groups memb toLookup ∧ x ∉ ret' := fun x => mem_jsDifference
      apply ih ret' toLookup'
      · intro x hx
        rcases (hmemret' x).mp hx with h | h
        · exact hretR x h
        · exact hlookR x h
      · intro x hx
        obtain ⟨hstep, _⟩ := (hmemtl' x).mp hx
        obtain ⟨hg, d, hd, hmd⟩ := mem_stepSearch.mp hstep
        exact TransReach.step hg hmd (hlookR d hd)
      · intro x hx
        rcases hS0 x hx with h | h
        · exact Or.inl ((hmemret' x).mpr (Or.inl h))
        · exact Or.inl ((hmemret' x).mpr (Or.inr h))
      · intro g hg
        obtain ⟨hggroups, d, hd, hmd⟩ := mem_stepSearch.mp hg
        rcases (hmemret' d).mp hd with hdret | hdlook
        · rcases hclose g (mem_stepSearch.mpr ⟨hggroups, d, hdret, hmd⟩) with h | h
          · exact Or.inl ((hmemret' g).mpr (Or.inl h))
          · exact Or.inl ((hmemret' g).mpr (Or.inr h))
        · by_cases hgret' : g ∈ ret'
          · exact Or.inl hgret'
          · refine Or.inr ((hmemtl' g).mpr ⟨mem_stepSearch.mpr ⟨hggroups, d, hdlook, hmd⟩, hgret'⟩)
      · intro x hx
        exact ((hmemtl' x).mp hx).2
      · intro x hx
        obtain ⟨hstep, _⟩ := (hmemtl' x).mp hx
        exact Or.inr (mem_stepSearch.mp hstep).1
      · left
        rcases hfuel with hcard | habs
        · have hy_univ : y ∈ (S0 ++ groups).toFinset := by
            rw [List.mem_toFinset, List.mem_append]
            exact huniv y (by simp [htl])
          have hy_notret : y ∉ ret.toFinset := by
            rw [List.mem_toFinset]
            exact hdisj y (by simp [htl])
          have hy_ret' : y ∈ ret'.toFinset := by
            rw [List.mem_toFinset]
            exact (hmemret' y).mpr (Or.inr (by simp [htl]))
          have hsub : (S0 ++ groups).toFinset \ ret'.toFinset ⊆
              (S0 ++ groups).toFinset \ ret.toFinset := by
            intro z hz
            rw [Finset.mem_sdiff] at hz ⊢
            refine ⟨hz.1, fun hzret => hz.2 ?_⟩
            rw [List.mem_toFinset] at hzret ⊢
            exact (hmemret' z).mpr (Or.inl hzret)
          have hss : (S0 ++ groups).toFinset \ ret'.toFinset ⊂
              (S0 ++ groups).toFinset \ ret.toFinset := by
            rw [Finset.ssubset_iff_of_subset hsub]
            exact ⟨y, by rw [Finset.mem_sdiff]; exact ⟨hy_univ, hy_notret⟩,
              by rw [Finset.mem_sdiff]; intro hcon; exact hcon.2 hy_ret'⟩
          have := Finset.card_lt_card hss
          omega
        · exact absurd habs (by simp [htl])

/-- C4: for every finite group set and membership relation, the
transitive group lookup terminates (fuel `|S0| + |groups| + 1` suffices),
its result contains every starting DN, and it contains exactly the DNs
transitively reachable from `S0` (the starting DNs and the groups
reachable through membership chains). -/
theorem C4_transitiveGroupLookup (groups S0 : List String)
    (memb : String → String → Bool) :
    ∃ r, transitiveGroupLookup groups memb (S0.length + groups.length + 1) [] S0 = some r ∧
      (∀ d ∈ S0, d ∈ r) ∧
      (∀ x, x ∈ r ↔ TransReach groups memb S0 x) := by
  obtain ⟨r, hrun, hsound, hS0r, hclosed⟩ :=
    tgl_exit groups memb S0 (S0.length + groups.length + 1) [] S0
      (by simp)
      (fun x hx => TransReach.base hx)
      (fun x hx => Or.inr hx)
      (by intro g hg; rw [mem_stepSearch] at hg; obtain ⟨_, d, hd, _⟩ := hg; simp at hd)
      (by simp)
      (fun x hx => Or.inl hx)
      (by
        left
        have h1 : ((S0 ++ groups).toFinset \ (List.nil (α := String)).toFinset).card =
            (S0 ++ groups).toFinset.card := by simp
        have h2 := List.toFinset_card_le (S0 ++ groups)
        simp only [List.length_append] at h2
        omega)
  refine ⟨r, hrun, hS0r, fun x => ⟨hsound x, ?_⟩⟩
  intro hreach
  induction hreach with
  | base hd => exact hS0r _ hd
  | step hg hmd _ ihd =>
    exact hclosed _ (mem_stepSearch.mpr ⟨hg, _, ihd, hmd⟩)

lemma BInv_bufferctl {s : BState} (h : BInv s) : BInv (bufferctl s) := by
  obtain ⟨h1, h2, h3, h4, h5, h6⟩ := h
  unfold bufferctl
  dsimp only
  split_ifs with hA hB hC hD hE hF hG hH <;>
    refine ⟨?_, ?_, ?_, ?_, ?_, ?_⟩ <;>
    simp_all

lemma BInv_step {s s' : BState} {a : BAct} (h : BInv s) (hs : step s a = some s') :
    BInv s' := by
  obtain ⟨h1, h2, h3, h4, h5, h6⟩ := h
  cases a with
  | push e =>
    simp only [step] at hs
    rw [if_neg (by simp [h1])] at hs
    split at hs
    · have hmid : BInv { s with buffer := s.buffer ++ [e], phase := phaseAfterPush s e } := by
        rename_i hallow
        cases e <;>
          simp_all [pushAllowed, phaseAfterPush, BInv, List.count_append]
      injection hs with hs
      rw [← hs]
      exact BInv_bufferctl hmid
    · exact Option.noConfusion hs
  | consume =>
    simp only [step] at hs
    split at hs
    · exact Option.noConfusion hs
    cases hbuf : s.buffer with
    | nil => rw [hbuf] at hs; exact Option.noConfusion hs
    | cons item rest =>
      rw [hbuf] at hs
      have hcount : s.buffer.count BItem.pageCb =
          (item :: rest).count BItem.pageCb := by rw [hbuf]
      have hmem5 : s.phase = Phase.awaiting → BItem.pageNoCb ∉ item :: rest := by
        rw [← hbuf]; exact h5
      have hmem6 : s.phase = Phase.active → BItem.pageNoCb ∉ item :: rest := by
        rw [← hbuf]; exact h6
      cases item with
      | entry =>
        dsimp only at hs
        injection hs with hs
        rw [← hs]
        refine ⟨h1, h2, h3, ?_, ?_, ?_⟩ <;>
          simp_all [List.count_cons]
      | pageCb =>
        dsimp only at hs
        have hrp : s.resumePending = false := by
          by_contra hc
          simp only [Bool.not_eq_false] at hc
          have := h3 hc
          rw [hcount] at h4
          simp [hc, this, List.count_cons] at h4
        rw [if_neg (by simp [hrp])] at hs
        have hph : s.phase = Phase.awaiting := by
          by_contra hc
          rw [hcount] at h4
          simp [hrp, hc, List.count_cons] at h4
        have hcnt0 : rest.count BItem.pageCb = 0 := by
          rw [hcount] at h4
          simp [hrp, hph, List.count_cons] at h4
          omega
        split at hs <;> injection hs with hs <;> rw [← hs]
        · rename_i hsp
          refine ⟨h1, fun _ => hsp, fun _ => hph, ?_, ?_, ?_⟩ <;>
            simp_all
        · refine ⟨h1, ?_, ?_, ?_, ?_, ?_⟩ <;> simp_all
      | pageNoCb =>
        dsimp only at hs
        have hph : s.phase ≠ Phase.awaiting := by
          intro hc
          exact hmem5 hc (by simp)
        have hrp : s.resumePending = false := by
          by_contra hc
          simp only [Bool.not_eq_false] at hc
          exact hph (h3 hc)
        rw [if_neg (by simp [hrp])] at hs
        injection hs with hs
        rw [← hs]
        refine ⟨h1, h2, h3, ?_, ?_, ?_⟩ <;> simp_all [List.count_cons]
      | referral =>
        dsimp only at hs
        injection hs with hs
        rw [← hs]
        refine ⟨h1, h2, h3, ?_, ?_, ?_⟩ <;> simp_all [List.count_cons]
      | err =>
        dsimp only at hs
        injection hs with hs
        rw [← hs]
        refine ⟨h1, h2, h3, ?_, ?_, ?_⟩ <;> simp_all [List.count_cons]
      | done =>
        dsimp only at hs
        injection hs with hs
        rw [← hs]
        refine ⟨h1, h2, h3, ?_, ?_, ?_⟩ <;> simp_all [List.count_cons]
  | park =>
    simp only [step] at hs
    split at hs
    · exact Option.noConfusion hs
    cases hbuf : s.buffer with
    | nil =>
      rw [hbuf] at hs
      dsimp only at hs
      split at hs
      · exact Option.noConfusion hs
      · injection hs with hs
        rw [← hs]
        apply BInv_bufferctl
        refine ⟨h1, h2, h3, ?_, ?_, ?_⟩ <;> simp_all
    | cons item rest =>
      rw [hbuf] at hs
      dsimp only at hs
      exact Option.noConfusion hs

lemma BInv_reachable {s : BState} (h : BReachable s) : BInv s := by
  induction h with
  | init => refine ⟨rfl, by simp [initBState], by simp [initBState], ?_, ?_, ?_⟩ <;> simp [initBState]
  | step _ hstep ih => exact BInv_step ih hstep

lemma bufferctl_no_pending_below {m : BState}
    (h2 : m.resumePending = true → m.shouldPause = true) :
    ¬((bufferctl m).resumePending = true ∧
      (bufferctl m).buffer.length < buffer_resume_at_length) := by
  by_cases hrp : m.resumePending = true
  · have hsp := h2 hrp
    unfold bufferctl
    dsimp only
    split_ifs with hA hB hC hD hE hF hG <;>
      simp_all [buffer_pause_at_length, buffer_resume_at_length]
  · unfold bufferctl
    dsimp only
    split_ifs <;> simp_all

/-- C6 (amended): in every reachable state of the event loop, the
driver's single-outstanding-callback assertion has never failed (so at
most one page-resume callback is withheld at a time), a withheld
callback implies the pause flag, and immediately after any transition
that runs `bufferctl` — a producer push or the consumer parking on an
empty buffer; the dequeue path does not run it — no callback remains
withheld while the queue length is below `buffer_resume_at_length`. -/
theorem C6_backpressure_invariants (s : BState) (hreach : BReachable s) :
    s.assertFailed = false ∧
    (s.resumePending = true → s.shouldPause = true) ∧
    (∀ (a : BAct) (s' : BState), step s a = some s' →
      (a = BAct.park ∨ ∃ e, a = BAct.push e) →
      ¬(s'.resumePending = true ∧ s'.buffer.length < buffer_resume_at_length)) := by
  obtain ⟨h1, h2, h3, h4, h5, h6⟩ := BInv_reachable hreach
  refine ⟨h1, h2, ?_⟩
  rintro a s' hs (rfl | ⟨e, rfl⟩)
  · simp only [step] at hs
    split at hs
    · exact Option.noConfusion hs
    cases hbuf : s.buffer with
    | nil =>
      rw [hbuf] at hs
      dsimp only at hs
      split at hs
      · exact Option.noConfusion hs
      · injection hs with hs
        rw [← hs]
        exact bufferctl_no_pending_below (by simpa using h2)
    | cons item rest =>
      rw [hbuf] at hs
      dsimp only at hs
      exact Option.noConfusion hs
  · simp only [step] at hs
    rw [if_neg (by simp [h1])] at hs
    split at hs
    · injection hs with hs
      rw [← hs]
      exact bufferctl_no_pending_below (by simpa using h2)
    · exact Option.noConfusion hs

lemma bufferctl_small_entries (n : Nat) (hn : n + 1 ≤ buffer_pause_at_length) :
    bufferctl ⟨List.replicate (n + 1) BItem.entry, false, false, false,
      Phase.active, false, false⟩ =
    ⟨List.replicate (n + 1) BItem.entry, false, false, false, Phase.active, false, false⟩ := by
  unfold bufferctl
  dsimp only
  split_ifs with hA hB hC <;>
    simp_all [List.length_replicate, buffer_pause_at_length, buffer_resume_at_length]
  omega

lemma stage1_reachable : ∀ n, n ≤ buffer_pause_at_length →
    BReachable ⟨List.replicate n BItem.entry, false, false, false, Phase.active, false, false⟩ := by
  intro n
  induction n with
  | zero => intro _; exact BReachable.init
  | succ n ih =>
    intro hn
    refine BReachable.step (ih (by omega)) (a := BAct.push BItem.entry) ?_
    simp only [step, pushAllowed, phaseAfterPush]
    rw [if_neg (by simp), if_pos (by simp)]
    rw [show List.replicate n BItem.entry ++ [BItem.entry] =
      List.replicate (n + 1) BItem.entry from (List.replicate_succ' _ _).symm]
    rw [bufferctl_small_entries n hn]

lemma bufferctl_cross_pause (l : List BItem) (hl : buffer_pause_at_length < l.length) :
    bufferctl ⟨l, false, false, false, Phase.active, false, false⟩ =
    ⟨l, true, false, false, Phase.active, false, false⟩ := by
  unfold bufferctl
  dsimp only
  split_ifs with hA hB hC <;>
    simp_all [buffer_pause_at_length, buffer_resume_at_length] <;> omega

lemma bufferctl_noop_paused (l : List BItem) (ph : Phase)
    (hl : buffer_resume_at_length ≤ l.length) :
    bufferctl ⟨l, true, false, false, ph, false, false⟩ =
    ⟨l, true, false, false, ph, false, false⟩ := by
  unfold bufferctl
  dsimp only
  split_ifs with hA hB hC <;>
    simp_all [buffer_pause_at_length, buffer_resume_at_length] <;> omega

lemma stage2_reachable :
    BReachable ⟨List.replicate 2001 BItem.entry, true, false, false,
      Phase.active, false, false⟩ := by
  refine BReachable.step (stage1_reachable 2000 (by decide)) (a := BAct.push BItem.entry) ?_
  simp only [step, pushAllowed, phaseAfterPush]
  rw [if_neg (by simp), if_pos (by simp)]
  rw [show List.replicate 2000 BItem.entry ++ [BItem.entry] =
    List.replicate 2001 BItem.entry from (List.replicate_succ' _ _).symm]
  rw [bufferctl_cross_pause _
    (by simp only [List.length_replicate, buffer_pause_at_length]; omega)]

lemma stage3_reachable :
    BReachable ⟨List.replicate 2001 BItem.entry ++ [BItem.pageCb], true, false, false,
      Phase.awaiting, false, false⟩ := by
  refine BReachable.step stage2_reachable (a := BAct.push BItem.pageCb) ?_
  simp only [step, pushAllowed, phaseAfterPush]
  rw [if_neg (by simp), if_pos (by simp)]
  rw [bufferctl_noop_paused _ _
    (by simp only [List.length_append, List.length_replicate, List.length_cons,
      List.length_nil, buffer_resume_at_length]; omega)]

lemma drain_reachable : ∀ k,
    BReachable ⟨List.replicate k BItem.entry ++ [BItem.pageCb], true, false, false,
      Phase.awaiting, false, false⟩ →
    BReachable ⟨[BItem.pageCb], true, false, false, Phase.awaiting, false, false⟩ := by
  intro k
  induction k with
  | zero => exact fun h => h
  | succ k ih =>
    intro h
    exact ih (BReachable.step h (a := BAct.consume) rfl)

/-- C6 (counterexample): a reachable state in which the page-resume
callback is withheld while the queue length (zero) is below 200.  The
trace: 2001 entries arrive (the 2001st check sets the pause flag), the
page event arrives, the consumer drains all 2001 entries (no
buffer-control check runs on dequeue, so the flag stays set even as the
length falls through 200), then consumes the page item and withholds its
callback.  The queue has long since fallen below 200 yet the callback is
withheld and not invoked, contradicting both "withheld exactly when the
queue has grown above 2000 items without having since fallen below 200"
and "invoked as soon as the queue length drops below 200". -/
theorem C6_counterexample :
    BReachable ⟨[], true, true, false, Phase.awaiting, false, false⟩ ∧
    (⟨[], true, true, false, Phase.awaiting, false, false⟩ : BState).resumePending = true ∧
    (⟨[], true, true, false, Phase.awaiting, false, false⟩ : BState).buffer.length <
      buffer_resume_at_length := by
  refine ⟨?_, rfl, by decide⟩
  exact BReachable.step (drain_reachable 2001 stage3_reachable) (a := BAct.consume) rfl

lemma storeExtends_refl (σ : Store) : StoreExtends σ σ :=
  ⟨Nat.le_refl _, fun _ _ => rfl⟩

lemma storeExtends_trans {σ1 σ2 σ3 : Store}
    (h12 : StoreExtends σ1 σ2) (h23 : StoreExtends σ2 σ3) : StoreExtends σ1 σ3 := by
  refine ⟨Nat.le_trans h12.1 h23.1, fun a ha => ?_⟩
  rw [h23.2 a (Nat.lt_of_lt_of_le ha h12.1), h12.2 a ha]

lemma append_one_extends (σ : Store) (node : List JSV) :
    StoreExtends σ (σ ++ [node]) := by
  refine ⟨by simp, fun a ha => ?_⟩
  simp only [List.get?_eq_getElem?]
  exact List.getElem?_append_left ha

lemma extends_of_const {σ σ' : Store} {x r : Except String String}
    (h : (some (x, σ) : Option (Except String String × Store)) = some (r, σ')) :
    StoreExtends σ σ' := by
  simp only [Option.some.injEq, Prod.mk.injEq] at h
  rw [← h.2]
  exact storeExtends_refl σ

lemma allocEqArrays_extends (attrArg : JSV) :
    ∀ (l : List JSV) (σ : Store), StoreExtends σ (allocEqArrays attrArg σ l).1 := by
  intro l
  induction l with
  | nil => intro σ; exact storeExtends_refl σ
  | cons v rest ih =>
    intro σ
    exact storeExtends_trans (append_one_extends σ _) (ih _)

lemma joinCompS_extends (F : Store → JSV → Option (Except String String × Store))
    (hF : ∀ σ x r σ', F σ x = some (r, σ') → StoreExtends σ σ') :
    ∀ (l : List JSV) (σ : Store) (r : Except String String) (σ' : Store),
      joinCompS F σ l = some (r, σ') → StoreExtends σ σ' := by
  intro l
  induction l with
  | nil =>
    intro σ r σ' h
    exact extends_of_const h
  | cons x xs ih =>
    intro σ r σ' h
    simp only [joinCompS] at h
    cases hFx : F σ x with
    | none => rw [hFx] at h; exact Option.noConfusion h
    | some p =>
      obtain ⟨ex, σ1⟩ := p
      rw [hFx] at h
      have h1 := hF σ x ex σ1 hFx
      cases ex with
      | error e =>
        dsimp only at h
        exact storeExtends_trans h1 (extends_of_const h)
      | ok s =>
        dsimp only at h
        cases hJ : joinCompS F σ1 xs with
        | none => rw [hJ] at h; exact Option.noConfusion h
        | some q =>
          obtain ⟨ex2, σ2⟩ := q
          rw [hJ] at h
          have h2 := ih σ1 ex2 σ2 hJ
          cases ex2 with
          | error e =>
            dsimp only at h
            exact storeExtends_trans h1 (storeExtends_trans h2 (extends_of_const h))
          | ok t =>
            dsimp only at h
            exact storeExtends_trans h1 (storeExtends_trans h2 (extends_of_const h))

lemma ldapfilterS_extends :
    ∀ (f : Nat) (σ : Store) (v : JSV) (b : List String) (r : Except String String)
      (σ' : Store), ldapfilterS f σ v b = some (r, σ') → StoreExtends σ σ' := by
  intro f
  induction f with
  | zero => intro σ v b r σ' h; simp [ldapfilterS] at h
  | succ f ih =>
    intro σ v b r σ' h
    cases v with
    | str s => simp only [ldapfilterS] at h; exact extends_of_const h
    | num n => simp only [ldapfilterS] at h; exact extends_of_const h
    | ref addr =>
      simp only [ldapfilterS] at h
      split at h <;>
        (repeat' (first
          | exact extends_of_const h
          | exact ih _ _ _ _ _ h
          | exact storeExtends_trans (append_one_extends _ _) (ih _ _ _ _ _ h)
          | exact storeExtends_trans (append_one_extends _ _)
              (storeExtends_trans (append_one_extends _ _) (ih _ _ _ _ _ h))
          | exact storeExtends_trans (allocEqArrays_extends _ _ _)
              (storeExtends_trans (append_one_extends _ _) (ih _ _ _ _ _ h))
          | exact Option.noConfusion h
          | (rename_i heq;
             exact storeExtends_trans
               (joinCompS_extends _ (fun σa xa ra σb hj => ih σa xa b ra σb hj) _ _ _ _ heq)
               (extends_of_const h))
          | (rename_i heq;
             exact storeExtends_trans (ih _ _ _ _ _ heq) (extends_of_const h))
          | split at h))

lemma readTreeList_congr {F G : JSV → Option JTree}
    (l : List JSV) (h : ∀ x ∈ l, F x = G x) :
    readTreeList F l = readTreeList G l := by
  induction l with
  | nil => rfl
  | cons x xs ih =>
    simp only [readTreeList]
    rw [h x (by simp), ih (fun y hy => h y (by simp [hy]))]

lemma get?_mem_of_closed {σ : Store} {a : Nat} {node : List JSV}
    (hget : σ.get? a = some node) : node ∈ σ := by
  rw [List.get?_eq_getElem?] at hget
  exact List.getElem?_mem hget

lemma readTree_extends {σ σ' : Store} (hext : StoreExtends σ σ')
    (hclosed : ClosedStore σ) :
    ∀ (g : Nat) (v : JSV), ClosedVal σ v → readTree g σ' v = readTree g σ v := by
  intro g
  induction g with
  | zero => intro v _; rfl
  | succ g ih =>
    intro v hv
    cases v with
    | str s => rfl
    | num n => rfl
    | ref a =>
      have ha : a < σ.length := hv a rfl
      simp only [readTree]
      rw [hext.2 a ha]
      cases hget : σ.get? a with
      | none => rfl
      | some elems =>
        have helems : elems ∈ σ := get?_mem_of_closed hget
        dsimp only
        rw [readTreeList_congr elems (fun x hx => ih x (fun a' hx' =>
          hclosed elems helems x hx a' hx'))]

/-- C9: compiling an expression never mutates it.  Whenever the
heap-level compiler returns (a string or a thrown validation error), the
heap it returns extends the input heap — no existing array cell is
changed, only fresh arrays are appended — and consequently the
expression tree decoded from the argument after the call is structurally
equal to the tree before the call. -/
theorem C9_compile_no_mutation (f : Nat) (σ : Store) (v : JSV) (b : List String)
    (r : Except String String) (σ' : Store)
    (h : ldapfilterS f σ v b = some (r, σ')) :
    StoreExtends σ σ' ∧
    (ClosedStore σ → ClosedVal σ v → ∀ g, readTree g σ' v = readTree g σ v) := by
  have hext := ldapfilterS_extends f σ v b r σ' h
  exact ⟨hext, fun hcs hcv g => readTree_extends hext hcs g v hcv⟩

theorem C9_witness :
    ldapfilterS 2 [[JSV.str "equals", JSV.str "cn", JSV.str "x"]] (.ref 0) [] =
      some (.ok "(cn=x)", [[JSV.str "equals", JSV.str "cn", JSV.str "x"]]) ∧
    StoreExtends [[JSV.str "equals", JSV.str "cn", JSV.str "x"]]
      [[JSV.str "equals", JSV.str "cn", JSV.str "x"]] ∧
    readTree 2 [[JSV.str "equals", JSV.str "cn", JSV.str "x"]] (.ref 0) =
      some (.arr [.str "equals", .str "cn", .str "x"]) := by
  refine ⟨rfl, ?_, rfl⟩
  exact (C9_compile_no_mutation 2 [[JSV.str "equals", JSV.str "cn", JSV.str "x"]]
    (.ref 0) [] (.ok "(cn=x)") [[JSV.str "equals", JSV.str "cn", JSV.str "x"]] rfl).1

theorem C4_witness :
    ∃ r, transitiveGroupLookup ["g1", "g2", "g3"] memExample (1 + 3 + 1) [] ["d0"] =
        some r ∧
      "d0" ∈ r ∧ "g1" ∈ r ∧ "g2" ∈ r ∧ "g3" ∉ r := by
  obtain ⟨r, hrun, hS0, hchar⟩ := C4_transitiveGroupLookup ["g1", "g2", "g3"] ["d0"] memExample
  refine ⟨r, hrun, hS0 "d0" (by simp), ?_, ?_, ?_⟩
  · exact (hchar "g1").mpr
      (TransReach.step (g := "g1") (d := "d0") (by simp) (by decide)
        (TransReach.base (by simp)))
  · exact (hchar "g2").mpr
      (TransReach.step (g := "g2") (d := "g1") (by simp) (by decide)
        (TransReach.step (g := "g1") (d := "d0") (by simp) (by decide)
          (TransReach.base (by simp))))
  · intro hg3
    have hreach := (hchar "g3").mp hg3
    cases hreach with
    | base hd => simp at hd
    | step hg hm hd => simp [memExample] at hm

theorem C6_witness :
    initBState.assertFailed = false ∧
    (initBState.resumePending = true → initBState.shouldPause = true) ∧
    (∀ (a : BAct) (s' : BState), step initBState a = some s' →
      (a = BAct.park ∨ ∃ e, a = BAct.push e) →
      ¬(s'.resumePending = true ∧ s'.buffer.length < buffer_resume_at_length)) :=
  C6_backpressure_invariants initBState BReachable.init
